import Mathlib

/-!
Verification development for the llm-council repository.

Part A embeds the prompt-template helpers of
`frontend/src/components/PromptTemplateLibrary.jsx` (`extractFields`,
`renderPromptWithValues`) over `List Char`, mirroring the JavaScript
semantics of `/\x7b\x7b(\w+)\x7d\x7d/g` matching and of sequential
`String.replace` with the global flag.

Part B models the backend orchestration core (tool executor, per-model
tool-calling loop, parallel dispatcher, stage orchestrator, event stream).
The backend sources (`backend/tools.py`, `backend/openrouter.py`,
`backend/council.py`, `backend/config.py`) are not part of the source
tree; those components are modelled from the specification, as marked on
each definition.
-/

namespace LLMCouncil

/-- JavaScript `\w` word character: ASCII letter, digit or underscore. -/
def isWordChar (c : Char) : Bool := c.isAlphanum || c = '_'

/-- Whitespace as recognized by JavaScript `String.trim`: the ECMAScript
WhiteSpace and LineTerminator code points - TAB, LF, VT, FF, CR, SPACE,
NBSP, OGHAM SPACE MARK, the EN QUAD through HAIR SPACE range, LINE
SEPARATOR, PARAGRAPH SEPARATOR, NARROW NO-BREAK SPACE, MEDIUM
MATHEMATICAL SPACE, IDEOGRAPHIC SPACE and ZWNBSP. -/
def isJsWs (c : Char) : Bool :=
  c = '\x09' || c = '\x0a' || c = '\x0b' || c = '\x0c' || c = '\x0d' ||
  c = '\x20' || c = '\xa0' || c = '\u1680' ||
  (0x2000 ≤ c.toNat && c.toNat ≤ 0x200a) ||
  c = '\u2028' || c = '\u2029' || c = '\u202f' || c = '\u205f' ||
  c = '\u3000' || c = '\ufeff'

/-- Trim on lists of characters: drop whitespace from both ends. -/
def jsTrimL (l : List Char) : List Char :=
  ((l.dropWhile isJsWs).reverse.dropWhile isJsWs).reverse

/-- Embedding of JavaScript `value && value.trim() !== ''`:
the parameter value is applied only when non-empty after trimming. -/
def filledCond (v : String) : Bool :=
  decide (v ≠ "") && decide (jsTrimL v.data ≠ [])

/-- The literal text of a `\x7b\x7bname\x7d\x7d` placeholder. -/
def placeholderL (f : List Char) : List Char :=
  '\x7b' :: '\x7b' :: (f ++ ['\x7d', '\x7d'])

/-- Wellformed field name: non-empty, word characters only (the only names
`extractFields` can produce). -/
def wfName (f : List Char) : Bool := !f.isEmpty && f.all isWordChar

/-- Attempt of the regex `\x7b\x7b(\w+)\x7d\x7d` at the head of the input:
two opening braces, a non-empty greedy run of word characters, two closing
braces; returns the captured name.  Because a word character can never
match `\x7d`, the greedy run without backtracking is exactly the regex
engine's behaviour here. -/
def matchName? (t : List Char) : Option (List Char) :=
  match t with
  | c1 :: c2 :: r =>
    if c1 = '\x7b' ∧ c2 = '\x7b' then
      if (r.dropWhile isWordChar).take 2 = ['\x7d', '\x7d'] ∧ r.takeWhile isWordChar ≠ []
      then some (r.takeWhile isWordChar)
      else none
    else none
  | _ => none

/-- One pass of `body.matchAll(pattern)`: on a match, record the captured
name and resume after the match (the regex engine never rescans into a
match); otherwise advance one position.  The fuel argument is the length
of the remaining input, which bounds the recursion. -/
def scanGo : Nat → List Char → List (List Char)
  | _, [] => []
  | 0, _ => []
  | fuel + 1, c :: rest =>
    match matchName? (c :: rest) with
    | some w => w :: scanGo fuel (List.drop (w.length + 4) (c :: rest))
    | none => scanGo fuel rest

/-- All names captured by `/\x7b\x7b(\w+)\x7d\x7d/g` over the body, in match
order, duplicates kept. -/
def scanFields (s : List Char) : List (List Char) := scanGo s.length s

/-- Declarative companion of `scanFields`: the names of the pattern
occurrences at every position of the input, in position order.  This is the
reading of the claim "the names captured by occurrences of
\x7b\x7bname\x7d\x7d ... in order of first appearance". -/
def specScan (s : List Char) : List (List Char) :=
  (List.range s.length).filterMap (fun i => matchName? (List.drop i s))

/-- Deduplication in the manner of `new Set(...)`: keep the first
occurrence of each element, in order. -/
def dedupKeepFirstAux (seen : List String) : List String → List String
  | [] => []
  | x :: xs =>
    if x ∈ seen then dedupKeepFirstAux seen xs
    else x :: dedupKeepFirstAux (x :: seen) xs

/-- Deduplication keeping first occurrences, as `[...new Set(l)]` does. -/
def dedupKeepFirst (l : List String) : List String := dedupKeepFirstAux [] l

/-- Embedding of `extractFields(body)` from PromptTemplateLibrary.jsx:
collect the group captured by each match of `/\x7b\x7b(\w+)\x7d\x7d/g` and
remove duplicates with a `Set`, keeping first-appearance order. -/
def extractFields (body : String) : List String :=
  dedupKeepFirst ((scanFields body.data).map (fun w => String.mk w))

/-- Prefix test on character lists. -/
def isPrefOf : List Char → List Char → Bool
  | [], _ => true
  | _ :: _, [] => false
  | a :: p, b :: l => a = b && isPrefOf p l

/-- Occurrence of `pat` as a contiguous segment of `l`. -/
def occursIn (pat l : List Char) : Prop := ∃ pre post, l = pre ++ pat ++ post

/-- ECMAScript GetSubstitution for a string replacement against a pattern
with no capture groups (the component's placeholder regex has none): in
the replacement text, `\x24\x24` inserts a dollar, `\x24\x26` the matched
text, a dollar followed by a backquote the part of the subject before the
match and a dollar followed by an apostrophe the part after it; every
other dollar sequence - including `\x24` before a digit, since the
pattern has no groups, and `\x24<`, since it has no named groups - stays
literal, as does a trailing lone dollar. -/
def substRep (matched before after : List Char) : List Char → List Char
  | [] => []
  | '\x24' :: '\x24' :: rest => '\x24' :: substRep matched before after rest
  | '\x24' :: '\x26' :: rest => matched ++ substRep matched before after rest
  | '\x24' :: '\x60' :: rest => before ++ substRep matched before after rest
  | '\x24' :: '\x27' :: rest => after ++ substRep matched before after rest
  | c :: rest => c :: substRep matched before after rest

/-- Single left-to-right pass of a global replacement, exactly as
JavaScript `String.replace` with a `g`-flagged pattern and a string
replacement performs it: at each position, if the pattern starts there,
emit the replacement text after dollar-substitution against the subject
and resume after the pattern (the replacement text is never rescanned);
otherwise copy one character and advance.  `seen` is the part of the
subject already passed, which the dollar-substitution's context
insertions refer to; the fuel is the input length. -/
def repGo (pat rep : List Char) : Nat → List Char → List Char → List Char
  | _, _, [] => []
  | 0, _, s => s
  | fuel + 1, seen, c :: rest =>
    if isPrefOf pat (c :: rest) then
      substRep pat seen (List.drop pat.length (c :: rest)) rep
        ++ repGo pat rep fuel (seen ++ pat) (List.drop pat.length (c :: rest))
    else c :: repGo pat rep fuel (seen ++ [c]) rest

/-- One global-replace pass over a subject, given the part of the subject
already passed. -/
def repRun (pat rep seen s : List Char) : List Char :=
  repGo pat rep s.length seen s

/-- Global replacement of a non-empty literal pattern (the degenerate empty
pattern, which the component never builds, is the identity). -/
def replaceAllL (pat rep s : List Char) : List Char :=
  if pat.isEmpty then s else repRun pat rep [] s

/-- Embedding of one step of `renderPromptWithValues`: replace all
occurrences of the field's placeholder - inserting the value after
JavaScript's dollar-substitution, as `String.replace` does with a string
replacement - exactly when the value is non-empty after trimming,
otherwise keep the string unchanged.  For field names made of word
characters - the only names the component ever passes in, coming from
`extractFields` - the regex built from the field name matches exactly the
literal placeholder text, which is what is modelled. -/
def applyField (acc : List Char) (kv : String × String) : List Char :=
  if filledCond kv.2 = true then replaceAllL (placeholderL kv.1.data) kv.2.data acc
  else acc

/-- Embedding of `renderPromptWithValues(body, values)` from
PromptTemplateLibrary.jsx: fold the per-field replacement over the fields
in the order of `Object.keys(values)`, starting from the template body. -/
def renderPromptWithValues (body : String) (values : List (String × String)) : String :=
  String.mk (values.foldl applyField body.data)

/-- Simultaneous-substitution reading of the C10 claim (this definition
follows the claim's words, for comparison with the source embedding): scan
the body once; each placeholder occurrence whose field has a value that is
non-empty after trimming is replaced by that value, and everything else -
including placeholders of absent, empty or whitespace-only fields - is
copied to the output unchanged. -/
def renderSpecGo (values : List (String × String)) : Nat → List Char → List Char
  | 0, s => s
  | _ + 1, [] => []
  | fuel + 1, c :: rest =>
    match matchName? (c :: rest) with
    | some w =>
      match values.lookup (String.mk w) with
      | some v =>
        if filledCond v = true then
          v.data ++ renderSpecGo values fuel (List.drop (w.length + 4) (c :: rest))
        else c :: renderSpecGo values fuel rest
      | none => c :: renderSpecGo values fuel rest
    | none => c :: renderSpecGo values fuel rest

/-- Simultaneous substitution over a whole body, per the claim's words. -/
def renderSpec (body : String) (values : List (String × String)) : String :=
  String.mk (renderSpecGo values body.data.length body.data)

/-! ### Part B: the orchestration core, modelled from the specification.

The backend sources (`backend/tools.py`, `backend/openrouter.py`,
`backend/council.py`, `backend/config.py`) are not part of the source
tree; only their documentation is.  The definitions below are therefore
modelled from the specification, as their doc comments note. -/

/-- Modelled from the spec: one entry of a search provider's ranked result
list (`backend/tools.py` is missing from the source tree). -/
structure SearchResult where
  title : String
  url : String
  snippet : String
deriving DecidableEq

/-- Modelled from the spec: the external collaborators the Tool Executor
consumes (`backend/tools.py` is missing from the source tree) - the
optional primary-search credential, the primary (Tavily) and fallback
(DuckDuckGo) search providers, the encyclopedia lookup and the URL
fetcher.  Each provider either returns a value or fails with a
human-readable cause, never raising uncaught. -/
structure Env where
  tavilyKey : Option String
  tavily : String → Except String (List SearchResult)
  ddg : String → Except String (List SearchResult)
  wikipedia : String → Except String String
  fetchUrl : String → Except String String

/-- Modelled from the spec: the executor's result shape
`execute(name, arguments) -> <text, error?>`. -/
structure ToolResult where
  text : String
  error : Option String
deriving DecidableEq

/-- Argument lookup in an untyped argument map. -/
def getArg (args : List (String × String)) (k : String) : String :=
  (args.lookup k).getD ""

/-- Modelled from the spec: the result-count ceiling of the search tool. -/
def searchLimit : Nat := 5

/-- Modelled from the spec: the output-size ceiling of the URL fetcher. -/
def fetchLimit : Nat := 4000

/-- Modelled from the spec: the marker that flags truncated fetch output. -/
def truncMarker : String := "... [truncated]"

/-- Modelled from the spec: render at most `searchLimit` search results as
the text handed back to the model. -/
def renderResults (rs : List SearchResult) : String :=
  String.intercalate "\n"
    ((rs.take searchLimit).map
      (fun r => r.title ++ ": " ++ r.snippet ++ " (" ++ r.url ++ ")"))

/-- Modelled from the spec: truncate fetched page text to the output-size
ceiling, marking the cut; the marker is kept within the ceiling, so the
returned text never exceeds `fetchLimit` characters and truncation is a
partial result, not a failure. -/
def truncateContent (raw : String) : String :=
  if raw.data.length ≤ fetchLimit then raw
  else String.mk (raw.data.take (fetchLimit - truncMarker.data.length) ++ truncMarker.data)

/-- Modelled from the spec: the web-search tool with its fallback chain -
the primary provider is consulted only when its credential is configured,
the executor falls through to the fallback provider only on provider-level
failure (missing credential or a provider error), never on an empty result
set, and a failure of the whole chain becomes an error-bearing result,
not an exception. -/
def webSearch (env : Env) (q : String) : ToolResult :=
  let viaFallback :=
    match env.ddg q with
    | Except.ok rs => ToolResult.mk (renderResults rs) none
    | Except.error e => ToolResult.mk ("Error: web search failed: " ++ e) (some e)
  match env.tavilyKey with
  | some _ =>
    match env.tavily q with
    | Except.ok rs => ToolResult.mk (renderResults rs) none
    | Except.error _ => viaFallback
  | none => viaFallback

/-- Modelled from the spec: the encyclopedia tool; provider failures become
error-bearing results. -/
def wikiTool (env : Env) (q : String) : ToolResult :=
  match env.wikipedia q with
  | Except.ok s => ToolResult.mk s none
  | Except.error e => ToolResult.mk ("Error: wikipedia: " ++ e) (some e)

/-- Modelled from the spec: the URL-content tool; fetched text is truncated
to the ceiling and provider failures become error-bearing results. -/
def getUrlContent (env : Env) (url : String) : ToolResult :=
  match env.fetchUrl url with
  | Except.ok raw => ToolResult.mk (truncateContent raw) none
  | Except.error e => ToolResult.mk ("Error: fetch: " ++ e) (some e)

/-- Modelled from the spec: tokens of the calculator's restricted
expression language. -/
inductive CalcTok where
  | num (q : ℚ)
  | ident (s : String)
  | plus
  | minus
  | star
  | slash
  | pow
  | lparen
  | rparen
deriving DecidableEq

/-- Value of a run of decimal digits. -/
def digitsToNat (l : List Char) : Nat :=
  l.foldl (fun acc c => acc * 10 + (c.toNat - '0'.toNat)) 0

/-- Rational value of an integer part and a fractional digit run. -/
def ratOfDigits (ds fs : List Char) : ℚ :=
  (digitsToNat ds : ℚ) + (digitsToNat fs : ℚ) / ((10 : ℚ) ^ fs.length)

/-- Modelled from the spec: the tokenizer of the restricted arithmetic
language - numbers, identifiers, the arithmetic operators, parentheses and
whitespace; any other character is rejected (fails closed on foreign
syntax).  The fuel is the input length plus one. -/
def calcTokenize : Nat → List Char → Except String (List CalcTok)
  | 0, _ => Except.error "expression too long"
  | _ + 1, [] => Except.ok []
  | fuel + 1, c :: rest =>
    if isJsWs c then calcTokenize fuel rest
    else if c.isDigit then
      let ds := (c :: rest).takeWhile Char.isDigit
      match (c :: rest).dropWhile Char.isDigit with
      | '.' :: r2 =>
        let fs := r2.takeWhile Char.isDigit
        (calcTokenize fuel (r2.dropWhile Char.isDigit)).map
          (fun ts => CalcTok.num (ratOfDigits ds fs) :: ts)
      | after =>
        (calcTokenize fuel after).map (fun ts => CalcTok.num (ratOfDigits ds []) :: ts)
    else if isWordChar c then
      let ws := (c :: rest).takeWhile isWordChar
      (calcTokenize fuel ((c :: rest).dropWhile isWordChar)).map
        (fun ts => CalcTok.ident (String.mk ws) :: ts)
    else if c = '*' then
      match rest with
      | '*' :: r2 => (calcTokenize fuel r2).map (fun ts => CalcTok.pow :: ts)
      | _ => (calcTokenize fuel rest).map (fun ts => CalcTok.star :: ts)
    else if c = '+' then (calcTokenize fuel rest).map (fun ts => CalcTok.plus :: ts)
    else if c = '-' then (calcTokenize fuel rest).map (fun ts => CalcTok.minus :: ts)
    else if c = '/' then (calcTokenize fuel rest).map (fun ts => CalcTok.slash :: ts)
    else if c = '(' then (calcTokenize fuel rest).map (fun ts => CalcTok.lparen :: ts)
    else if c = ')' then (calcTokenize fuel rest).map (fun ts => CalcTok.rparen :: ts)
    else Except.error ("disallowed character: " ++ String.mk [c])

/-- Modelled from the spec: the restricted symbol table of the calculator -
math function and constant names only; no arbitrary name resolution. -/
def allowedNames : List String :=
  ["sqrt", "sin", "cos", "tan", "log", "exp", "abs", "floor", "ceil", "round", "pi", "e"]

/-- An identifier outside the restricted symbol table. -/
def hasDisallowedTok (ts : List CalcTok) : Bool :=
  ts.any (fun t =>
    match t with
    | CalcTok.ident s => !(allowedNames.contains s)
    | _ => false)

/-- An expression mentions a disallowed symbol or syntax when it fails to
tokenize or contains an identifier outside the restricted table. -/
def mentionsDisallowed (e : String) : Bool :=
  match calcTokenize (e.data.length + 1) e.data with
  | Except.error _ => true
  | Except.ok ts => hasDisallowedTok ts

/-- Modelled from the spec: stand-in interpretations of the allowed math
functions; the numeric semantics of the transcendental functions is not
pinned down by the spec and none of the verified properties depend on
these values. -/
def applyFn (name : String) (x : ℚ) : ℚ :=
  if name = "abs" then |x|
  else if name = "floor" then (x.floor : ℚ)
  else if name = "ceil" then (x.ceil : ℚ)
  else x

/-- Modelled from the spec: stand-in values of the allowed constants. -/
def constVal (name : String) : ℚ :=
  if name = "pi" then 314159 / 100000
  else if name = "e" then 271828 / 100000
  else 0

mutual

/-- Modelled from the spec: additive level of the expression grammar. -/
def parseE : Nat → List CalcTok → Except String (ℚ × List CalcTok)
  | 0, _ => Except.error "expression too deep"
  | fuel + 1, ts =>
    match parseT fuel ts with
    | Except.ok (v, rest) => parseESuffix fuel v rest
    | Except.error msg => Except.error msg

/-- Modelled from the spec: left-associated additions and subtractions. -/
def parseESuffix : Nat → ℚ → List CalcTok → Except String (ℚ × List CalcTok)
  | 0, _, _ => Except.error "expression too deep"
  | fuel + 1, v, CalcTok.plus :: ts =>
    match parseT fuel ts with
    | Except.ok (w, rest) => parseESuffix fuel (v + w) rest
    | Except.error msg => Except.error msg
  | fuel + 1, v, CalcTok.minus :: ts =>
    match parseT fuel ts with
    | Except.ok (w, rest) => parseESuffix fuel (v - w) rest
    | Except.error msg => Except.error msg
  | _ + 1, v, ts => Except.ok (v, ts)

/-- Modelled from the spec: multiplicative level of the grammar. -/
def parseT : Nat → List CalcTok → Except String (ℚ × List CalcTok)
  | 0, _ => Except.error "expression too deep"
  | fuel + 1, ts =>
    match parseF fuel ts with
    | Except.ok (v, rest) => parseTSuffix fuel v rest
    | Except.error msg => Except.error msg

/-- Modelled from the spec: left-associated products and quotients, with
the division-by-zero failure converted into an error value. -/
def parseTSuffix : Nat → ℚ → List CalcTok → Except String (ℚ × List CalcTok)
  | 0, _, _ => Except.error "expression too deep"
  | fuel + 1, v, CalcTok.star :: ts =>
    match parseF fuel ts with
    | Except.ok (w, rest) => parseTSuffix fuel (v * w) rest
    | Except.error msg => Except.error msg
  | fuel + 1, v, CalcTok.slash :: ts =>
    match parseF fuel ts with
    | Except.ok (w, rest) =>
      if w = 0 then Except.error "division by zero" else parseTSuffix fuel (v / w) rest
    | Except.error msg => Except.error msg
  | _ + 1, v, ts => Except.ok (v, ts)

/-- Modelled from the spec: the power level, right associated, restricted
to integral exponents. -/
def parseF : Nat → List CalcTok → Except String (ℚ × List CalcTok)
  | 0, _ => Except.error "expression too deep"
  | fuel + 1, ts =>
    match parseU fuel ts with
    | Except.ok (v, CalcTok.pow :: rest) =>
      match parseF fuel rest with
      | Except.ok (w, rest2) =>
        if w.den = 1 then Except.ok (v ^ w.num, rest2)
        else Except.error "non-integer exponent"
      | Except.error msg => Except.error msg
    | Except.ok (v, rest) => Except.ok (v, rest)
    | Except.error msg => Except.error msg

/-- Modelled from the spec: primary expressions - numbers, unary minus,
parenthesised expressions, applications of allowed functions and allowed
constants. -/
def parseU : Nat → List CalcTok → Except String (ℚ × List CalcTok)
  | 0, _ => Except.error "expression too deep"
  | _ + 1, CalcTok.num q :: ts => Except.ok (q, ts)
  | fuel + 1, CalcTok.minus :: ts =>
    (parseU fuel ts).map (fun vr => (-vr.1, vr.2))
  | fuel + 1, CalcTok.lparen :: ts =>
    match parseE fuel ts with
    | Except.ok (v, CalcTok.rparen :: rest) => Except.ok (v, rest)
    | Except.ok _ => Except.error "expected closing parenthesis"
    | Except.error msg => Except.error msg
  | fuel + 1, CalcTok.ident s :: CalcTok.lparen :: ts =>
    match parseE fuel ts with
    | Except.ok (v, CalcTok.rparen :: rest) => Except.ok (applyFn s v, rest)
    | Except.ok _ => Except.error "expected closing parenthesis"
    | Except.error msg => Except.error msg
  | _ + 1, CalcTok.ident s :: ts => Except.ok (constVal s, ts)
  | _ + 1, _ => Except.error "unexpected token"

end

/-- Modelled from the spec: evaluation of a calculator expression - fail
closed before any evaluation when the expression mentions a disallowed
symbol or syntax, otherwise parse and evaluate. -/
def calcEval (e : String) : Except String ℚ :=
  match calcTokenize (e.data.length + 1) e.data with
  | Except.error msg => Except.error msg
  | Except.ok ts =>
    if hasDisallowedTok ts then Except.error "disallowed symbol"
    else
      match parseE (5 * ts.length + 10) ts with
      | Except.ok (v, []) => Except.ok v
      | Except.ok _ => Except.error "unexpected trailing tokens"
      | Except.error msg => Except.error msg

/-- Modelled from the spec: the calculator tool - evaluation failures are
converted into error-bearing results, never exceptions. -/
def calcTool (e : String) : ToolResult :=
  match calcEval e with
  | Except.ok q => ToolResult.mk (toString q) none
  | Except.error m => ToolResult.mk ("Error: " ++ m) (some m)

/-- Modelled from the spec: the fixed tool set advertised to the models. -/
def toolNames : List String :=
  ["web_search", "calculator", "wikipedia_search", "get_url_content"]

/-- Modelled from the spec: the Tool Executor dispatch
`execute(name, arguments)` - a name outside the fixed tool set yields the
"unsupported tool" error result rather than a crash, and every branch is a
total function returning a result value (no exception passes the executor
boundary). -/
def execute (env : Env) (name : String) (args : List (String × String)) : ToolResult :=
  if name = "web_search" then webSearch env (getArg args "query")
  else if name = "calculator" then calcTool (getArg args "expression")
  else if name = "wikipedia_search" then wikiTool env (getArg args "query")
  else if name = "get_url_content" then getUrlContent env (getArg args "url")
  else ToolResult.mk ("Error: unsupported tool: " ++ name)
    (some ("unsupported tool: " ++ name))

/-- Modelled from the spec: terminal status of a Stage-1 loop. -/
inductive Status where
  | success
  | degraded
  | failed
deriving DecidableEq

/-- Modelled from the spec: a model-emitted tool-call request. -/
structure ToolCallRequest where
  name : String
  arguments : List (String × String)
deriving DecidableEq

/-- Modelled from the spec: the record of one executed tool call. -/
structure ToolCallRecord where
  name : String
  arguments : List (String × String)
  result : ToolResult
deriving DecidableEq

/-- Modelled from the spec: one model's Stage-1 outcome. -/
structure Stage1Result where
  model : String
  text : String
  records : List ToolCallRecord
  status : Status
deriving DecidableEq

/-- Modelled from the spec: one reply of the model query primitive. -/
structure ModelResponse where
  text : String
  toolRequests : List ToolCallRequest
deriving DecidableEq

/-- Modelled from the spec: a scripted model behaviour - the reply to the
k-th query of a loop, either a response or a provider error.  The spec's
query primitive receives the growing transcript; the replies are abstracted
as a pre-scripted sequence indexed by query number, which fixes an
arbitrary behaviour without loss for the verified properties. -/
abbrev Script := List (Except String ModelResponse)

/-- Reply to the k-th query of a scripted model; an exhausted script is a
provider error. -/
def queryScript (s : Script) (k : Nat) : Except String ModelResponse :=
  match s.get? k with
  | some r => r
  | none => Except.error "no scripted response"

/-- Modelled from the spec: execute every request of one model response in
order, producing the records appended to the model's result. -/
def execRequests (env : Env) (reqs : List ToolCallRequest) : List ToolCallRecord :=
  reqs.map (fun r => ToolCallRecord.mk r.name r.arguments (execute env r.name r.arguments))

/-- Modelled from the spec: the final text of an aborted loop - the last
textual content, or a generated partial-result notice when there is none. -/
def abortText (respText lastText : String) : String :=
  if respText ≠ "" then respText
  else if lastText ≠ "" then lastText
  else "[no final answer: tool-iteration cap reached]"

/-- Modelled from the spec: the per-model Tool-Calling Loop
(`backend/openrouter.py` is missing from the source tree).  `remaining`
counts the tool-executing iterations still allowed (initially the
configured cap) and `k` the queries already answered with executed
requests.  A provider error becomes a failed result without raising; a
reply without tool requests is the final answer (success); a reply with
requests executes them all and re-queries while the cap allows, and
otherwise aborts with a degraded - not failed - result, executing nothing
further.  Returns the Stage-1 result together with the number of
tool-executing iterations used. -/
def loopGo (env : Env) (script : Script) (modelId : String) :
    Nat → Nat → List ToolCallRecord → String → Stage1Result × Nat
  | remaining, k, acc, lastText =>
    match queryScript script k with
    | Except.error e =>
      (Stage1Result.mk modelId ("Error: " ++ e) acc Status.failed, k)
    | Except.ok resp =>
      if resp.toolRequests.isEmpty then
        (Stage1Result.mk modelId resp.text acc Status.success, k)
      else
        match remaining with
        | 0 =>
          (Stage1Result.mk modelId (abortText resp.text lastText) acc Status.degraded, k)
        | rem + 1 =>
          loopGo env script modelId rem (k + 1)
            (acc ++ execRequests env resp.toolRequests) resp.text

/-- Modelled from the spec: run one model's loop from its start state. -/
def runLoopFull (env : Env) (cap : Nat) (script : Script) (modelId : String) :
    Stage1Result × Nat :=
  loopGo env script modelId cap 0 [] ""

/-- Modelled from the spec: the Stage-1 result of one model. -/
def runLoop (env : Env) (cap : Nat) (script : Script) (modelId : String) : Stage1Result :=
  (runLoopFull env cap script modelId).1

/-- Modelled from the spec: the Parallel Dispatcher
(`backend/council.py` is missing from the source tree) - one loop per
council model, each result entry a function of that model's script alone
(per-model isolation), the fan-in returning only the complete result set
(the barrier).  Concurrency is modelled as a deterministic fan-out: the
claims' observable content - one result per configured model, isolation of
failures - does not depend on interleaving. -/
def dispatchStage1 (env : Env) (cap : Nat) (council : List (String × Script)) :
    List Stage1Result :=
  council.map (fun mc => runLoop env cap mc.2 mc.1)

deriving instance DecidableEq for Except

/-- Modelled from the spec: the tagged events crossing the system boundary
(`error` is spelled `errorEv`). -/
inductive Ev where
  | stage1_start
  | tool_call (model : String) (record : ToolCallRecord)
  | stage1_complete (payload : List Stage1Result)
  | stage2_start
  | stage2_complete (result : Except String String)
  | stage3_start
  | stage3_complete (result : Except String String)
  | errorEv (scope : String) (message : String)
  | complete
deriving DecidableEq

/-- Modelled from the spec: the Stage-2 prompt body embeds every Stage-1
final text - Stage 2 always observes the complete result set. -/
def promptConcat : List Stage1Result → String
  | [] => ""
  | r :: t => "\n--- " ++ r.model ++ "\n" ++ r.text ++ promptConcat t

/-- Modelled from the spec: the ranking prompt of Stage 2. -/
def buildRankingPrompt (q : String) (s1 : List Stage1Result) : String :=
  "Rank the council answers to: " ++ q ++ promptConcat s1

/-- Modelled from the spec: the synthesis prompt of Stage 3, embedding the
Stage-1 answers and the Stage-2 outcome and noting an unavailable
ranking. -/
def buildSynthesisPrompt (q : String) (s1 : List Stage1Result)
    (s2 : Except String String) : String :=
  "Synthesize a final answer to: " ++ q ++ promptConcat s1 ++
    (match s2 with
     | Except.ok r => "\nRankings:\n" ++ r
     | Except.error m => "\nRankings unavailable: " ++ m)

/-- Modelled from the spec: a single-shot stage query (Stages 2 and 3 never
offer tools): the scripted reply either succeeds or is downgraded to an
explicit failure marker carrying the given prefix; the scripted
abstraction ignores the prompt text. -/
def singleShot (script : Script) (failNote : String) (_prompt : String) :
    Except String String :=
  match queryScript script 0 with
  | Except.ok r => Except.ok r.text
  | Except.error e => Except.error (failNote ++ e)

/-- Modelled from the spec: the completed turn - entries for all three
stages are always present (the orchestrator never silently omits a stage),
together with the Stage-2 prompt the orchestrator built from the complete
Stage-1 set. -/
structure Turn where
  query : String
  stage1 : List Stage1Result
  rankingPrompt : String
  stage2 : Except String String
  stage3 : Except String String
deriving DecidableEq

/-- Modelled from the spec: the Stage Orchestrator wrapped by the Event
Multiplexer (`backend/council.py` and the streaming endpoint are missing
from the source tree): `run(query) -> Turn` with the ordered event stream.
Stage 1 fans out over the council between its start/complete events with
the tool-call events in between; Stages 2 and 3 are single-shot queries
whose provider failures are downgraded to explicit failure markers without
stopping the turn; the stream ends with the terminal `complete` event.
The function is total: no exception escapes `run`. -/
def runTurn (env : Env) (cap : Nat) (council : List (String × Script))
    (rankerScript synthScript : Script) (q : String) : Turn × List Ev :=
  let s1 := dispatchStage1 env cap council
  let toolEvs := (s1.map (fun r => r.records.map (fun rcd => Ev.tool_call r.model rcd))).flatten
  let rPrompt := buildRankingPrompt q s1
  let s2 := singleShot rankerScript "Ranking failed: " rPrompt
  let s3 := singleShot synthScript "Synthesis failed: " (buildSynthesisPrompt q s1 s2)
  (Turn.mk q s1 rPrompt s2 s3,
    [Ev.stage1_start] ++ toolEvs ++
      [Ev.stage1_complete s1, Ev.stage2_start, Ev.stage2_complete s2,
        Ev.stage3_start, Ev.stage3_complete s3] ++ [Ev.complete])

/-- Modelled from the spec: the causal-order automaton of the event
stream - `stage1_start`, then Stage-1 tool calls, then `stage1_complete`,
then the Stage-2 pair, the Stage-3 pair and the terminal `complete`; a
tool call outside the Stage-1 window, or any stage K+1 event before the
stage K completion event, is rejected. -/
def phaseStep : Nat → Ev → Option Nat
  | 0, Ev.stage1_start => some 1
  | 1, Ev.tool_call _ _ => some 1
  | 1, Ev.stage1_complete _ => some 2
  | 2, Ev.stage2_start => some 3
  | 3, Ev.stage2_complete _ => some 4
  | 4, Ev.stage3_start => some 5
  | 5, Ev.stage3_complete _ => some 6
  | 6, Ev.complete => some 7
  | _, _ => none

/-- Run of the order automaton from a phase. -/
def checkFrom : Nat → List Ev → Bool
  | _, [] => true
  | p, e :: rest =>
    match phaseStep p e with
    | some p' => checkFrom p' rest
    | none => false

/-- A stream is well ordered when the automaton accepts it from the start
phase. -/
def wellOrdered (evs : List Ev) : Bool := checkFrom 0 evs

/-- Test environment for concrete witnesses: no search credential, an
empty-result fallback, fixed benign providers. -/
def envT : Env :=
  Env.mk none (fun _ => Except.error "unreachable") (fun _ => Except.ok [])
    (fun _ => Except.ok "summary") (fun _ => Except.ok "page text")

/-- Test environment whose every provider fails. -/
def envFail : Env :=
  Env.mk none (fun _ => Except.error "down") (fun _ => Except.error "down")
    (fun _ => Except.error "down") (fun _ => Except.error "net: timeout")

/-- Three concrete search results for Scenario C. -/
def r3list : List SearchResult :=
  [SearchResult.mk "t1" "u1" "s1", SearchResult.mk "t2" "u2" "s2",
    SearchResult.mk "t3" "u3" "s3"]

/-- Test environment reproducing Scenario C: a configured credential, a
primary provider failing at transport level, a fallback returning three
results. -/
def envC : Env :=
  Env.mk (some "key") (fun _ => Except.error "transport error")
    (fun _ => Except.ok r3list) (fun _ => Except.ok "") (fun _ => Except.ok "")

/-- Test environment with a credential and an empty primary result set
(no fall-through on zero results). -/
def envC2 : Env :=
  Env.mk (some "key") (fun _ => Except.ok []) (fun _ => Except.error "unused")
    (fun _ => Except.ok "") (fun _ => Except.ok "")

/-- A model response requesting one (unknown) tool. -/
def oneReq : ModelResponse :=
  ModelResponse.mk "working" [ToolCallRequest.mk "nosuch" []]

/-- Scenario B script: a tool request on six consecutive responses. -/
def scriptB : Script := List.replicate 6 (Except.ok oneReq)

/-- A script whose first response carries six tool requests at once. -/
def scriptMulti : Script :=
  [Except.ok (ModelResponse.mk "w" (List.replicate 6 (ToolCallRequest.mk "nosuch" []))),
    Except.ok (ModelResponse.mk "done" [])]

/-- A two-model council for witnesses: one failing model, one succeeding
model. -/
def councilW : List (String × Script) :=
  [("m1", [Except.error "provider down"]),
    ("m2", [Except.ok (ModelResponse.mk "fine" [])])]

/-- Every scripted reply of the model carries at most one tool request. -/
def singleRequestScript (s : Script) : Bool :=
  s.all (fun r =>
    match r with
    | Except.ok resp => decide (resp.toolRequests.length ≤ 1)
    | Except.error _ => true)

section Theorems

/-- Word characters are never an opening brace. -/
theorem isWordChar_ne_lbrace {c : Char} (h : isWordChar c = true) : c ≠ '\x7b' := by
  intro hc
  subst hc
  simp [isWordChar] at h

/-- Take-while over a fully satisfying prefix followed by a failing element. -/
theorem takeWhile_append_all {p : Char → Bool} :
    ∀ {u : List Char} {x : Char}, u.all p = true → p x = false →
      ∀ r, (u ++ x :: r).takeWhile p = u := by
  intro u
  induction u with
  | nil => intro x _ hx r; simp [List.takeWhile_cons, hx]
  | cons a u ih =>
    intro x hall hx r
    rcases List.all_eq_true.mp hall a (by simp) with ha
    have hrest : u.all p = true :=
      List.all_eq_true.mpr fun b hb => List.all_eq_true.mp hall b (by simp [hb])
    simp [List.takeWhile_cons, ha, ih hrest hx r]

/-- Drop-while over a fully satisfying prefix followed by a failing element. -/
theorem dropWhile_append_all {p : Char → Bool} :
    ∀ {u : List Char} {x : Char}, u.all p = true → p x = false →
      ∀ r, (u ++ x :: r).dropWhile p = x :: r := by
  intro u
  induction u with
  | nil => intro x _ hx r; simp [List.dropWhile_cons, hx]
  | cons a u ih =>
    intro x hall hx r
    rcases List.all_eq_true.mp hall a (by simp) with ha
    have hrest : u.all p = true :=
      List.all_eq_true.mpr fun b hb => List.all_eq_true.mp hall b (by simp [hb])
    simp [List.dropWhile_cons, ha, ih hrest hx r]

/-- Shape of a successful head match: the input starts with the full
placeholder of the captured name, which is non-empty and word-only. -/
theorem matchName?_some {s w : List Char} (h : matchName? s = some w) :
    w ≠ [] ∧ w.all isWordChar = true ∧
      ∃ t, s = '\x7b' :: '\x7b' :: (w ++ '\x7d' :: '\x7d' :: t) := by
  match s with
  | [] => simp [matchName?] at h
  | [c] => simp [matchName?] at h
  | c1 :: c2 :: r =>
    simp only [matchName?] at h
    by_cases hbr : c1 = '\x7b' ∧ c2 = '\x7b'
    · rw [if_pos hbr] at h
      by_cases hcond : (r.dropWhile isWordChar).take 2 = ['\x7d', '\x7d']
          ∧ r.takeWhile isWordChar ≠ []
      · rw [if_pos hcond] at h
        have hw : w = r.takeWhile isWordChar := by
          have hh := h
          simp at hh
          exact hh.symm
        obtain ⟨h1, h2⟩ := hbr
        subst h1; subst h2; subst hw
        refine ⟨hcond.2,
          List.all_eq_true.mpr (fun a ha => List.mem_takeWhile_imp ha),
          ⟨(r.dropWhile isWordChar).drop 2, ?_⟩⟩
        have hsplit : r.takeWhile isWordChar ++ r.dropWhile isWordChar = r :=
          List.takeWhile_append_dropWhile isWordChar r
        have hd2 : ['\x7d', '\x7d'] ++ (r.dropWhile isWordChar).drop 2
            = r.dropWhile isWordChar := by
          conv_rhs => rw [← List.take_append_drop 2 (r.dropWhile isWordChar)]
          rw [hcond.1]
        show '\x7b' :: '\x7b' :: r
          = '\x7b' :: '\x7b' :: (r.takeWhile isWordChar
              ++ (['\x7d', '\x7d'] ++ (r.dropWhile isWordChar).drop 2))
        rw [hd2, hsplit]
      · rw [if_neg hcond] at h; exact absurd h (by simp)
    · rw [if_neg hbr] at h; exact absurd h (by simp)

/-- Converse shape lemma: a literal placeholder at the head always matches
and captures exactly its name. -/
theorem matchName?_of_shape {u : List Char} (hu : u ≠ [])
    (hall : u.all isWordChar = true) (t : List Char) :
    matchName? ('\x7b' :: '\x7b' :: (u ++ '\x7d' :: '\x7d' :: t)) = some u := by
  have htk : (u ++ '\x7d' :: ('\x7d' :: t)).takeWhile isWordChar = u :=
    takeWhile_append_all hall (by decide) _
  have hdr : (u ++ '\x7d' :: ('\x7d' :: t)).dropWhile isWordChar = '\x7d' :: '\x7d' :: t :=
    dropWhile_append_all hall (by decide) _
  simp only [matchName?, hdr, htk]
  simp [hu]

/-- A list whose head is not an opening brace never matches. -/
theorem matchName?_cons_ne {c : Char} (hc : c ≠ '\x7b') (l : List Char) :
    matchName? (c :: l) = none := by
  cases l with
  | nil => rfl
  | cons d r => simp [matchName?, hc]

/-- A list whose second element is not an opening brace never matches. -/
theorem matchName?_pair_ne (c : Char) {d : Char} (hd : d ≠ '\x7b') (l : List Char) :
    matchName? (c :: d :: l) = none := by
  simp [matchName?, hd]

/-- A word-only run followed by a closing brace never begins a match. -/
theorem matchName?_word_run_none {u : List Char} (hall : u.all isWordChar = true)
    (t : List Char) : matchName? (u ++ '\x7d' :: t) = none := by
  cases u with
  | nil => exact matchName?_cons_ne (by decide) t
  | cons a u' =>
    have ha : isWordChar a = true := List.all_eq_true.mp hall a (by simp)
    exact matchName?_cons_ne (isWordChar_ne_lbrace ha) _

/-- No other match can begin strictly inside a match: positions 1 up to
`w.length + 3` of a matching input never match.  This is the non-overlap
property of the placeholder pattern. -/
theorem matchName?_mid_none {s w : List Char} (h : matchName? s = some w) :
    ∀ i, 1 ≤ i → i ≤ w.length + 3 → matchName? (List.drop i s) = none := by
  obtain ⟨hw, hall, t, hs⟩ := matchName?_some h
  intro i h1 h2
  subst hs
  match i, h1 with
  | 1, _ =>
    rcases w with _ | ⟨a, w'⟩
    · exact absurd rfl hw
    · have ha : isWordChar a = true := List.all_eq_true.mp hall a (by simp)
      simpa using matchName?_pair_ne '\x7b' (isWordChar_ne_lbrace ha) _
  | (j + 2), _ =>
    have hj : j ≤ w.length + 1 := by omega
    have hdrop2 : List.drop (j + 2)
        ('\x7b' :: '\x7b' :: (w ++ '\x7d' :: '\x7d' :: t))
        = List.drop j (w ++ '\x7d' :: '\x7d' :: t) := by
      simp [List.drop_succ_cons]
    rw [hdrop2]
    by_cases hjw : j ≤ w.length
    · rw [List.drop_append_of_le_length hjw]
      have halldrop : (List.drop j w).all isWordChar = true :=
        List.all_eq_true.mpr fun a ha =>
          List.all_eq_true.mp hall a (List.mem_of_mem_drop ha)
      exact matchName?_word_run_none halldrop _
    · have hj1 : j = w.length + 1 := by omega
      subst hj1
      have : List.drop (w.length + 1) (w ++ '\x7d' :: '\x7d' :: t) = '\x7d' :: t := by
        have hbase : List.drop w.length (w ++ '\x7d' :: '\x7d' :: t) = '\x7d' :: '\x7d' :: t :=
          List.drop_left w _
        have hd := List.drop_drop 1 w.length (w ++ '\x7d' :: '\x7d' :: t)
        rw [hbase] at hd
        exact hd.symm
      rw [this]
      exact matchName?_cons_ne (by decide) t

/-- The scanner ignores its fuel as long as the fuel covers the input. -/
theorem scanGo_congr : ∀ (f1 : Nat) (s : List Char) (f2 : Nat),
    s.length ≤ f1 → s.length ≤ f2 → scanGo f1 s = scanGo f2 s := by
  intro f1
  induction f1 with
  | zero =>
    intro s f2 h1 _
    have : s = [] := List.eq_nil_of_length_eq_zero (by omega)
    subst this
    cases f2 <;> rfl
  | succ a ih =>
    intro s f2 h1 h2
    rcases s with _ | ⟨c, rest⟩
    · cases f2 <;> rfl
    · rcases f2 with _ | b
      · simp at h2
      · rcases hm : matchName? (c :: rest) with _ | w
        · simp only [scanGo, hm]
          exact ih rest b (by simp at h1; omega) (by simp at h2; omega)
        · simp only [scanGo, hm]
          have hlen : (List.drop (w.length + 4) (c :: rest)).length ≤ a := by
            simp [List.length_drop]
            simp at h1
            omega
          have hlen2 : (List.drop (w.length + 4) (c :: rest)).length ≤ b := by
            simp [List.length_drop]
            simp at h2
            omega
          rw [ih _ b hlen hlen2]

/-- Scan of the empty input. -/
theorem scanFields_nil : scanFields [] = [] := rfl

/-- Unfolding of the scanner at a match: record the name, resume after the
placeholder. -/
theorem scanFields_match {s w : List Char} (h : matchName? s = some w) :
    scanFields s = w :: scanFields (List.drop (w.length + 4) s) := by
  rcases s with _ | ⟨c, rest⟩
  · exact absurd h (by simp [matchName?])
  · simp only [scanFields, List.length_cons, scanGo, h]
    rw [scanGo_congr rest.length (List.drop (w.length + 4) (c :: rest))
      (List.drop (w.length + 4) (c :: rest)).length
      (by simp only [List.length_drop, List.length_cons]; omega) (le_refl _)]

/-- Unfolding of the scanner at a non-match: advance one position. -/
theorem scanFields_nomatch {c : Char} {rest : List Char}
    (h : matchName? (c :: rest) = none) :
    scanFields (c :: rest) = scanFields rest := by
  simp only [scanFields, List.length_cons, scanGo, h]

/-- Dropping two elements of a double cons. -/
theorem drop_two_cons (a b : Char) (l : List Char) (n : Nat) :
    List.drop (n + 2) (a :: b :: l) = List.drop n l := rfl

/-- Dropping a whole placeholder from the head of the input leaves the tail. -/
theorem drop_placeholder (w t : List Char) :
    List.drop (w.length + 4) ('\x7b' :: '\x7b' :: (w ++ '\x7d' :: '\x7d' :: t)) = t := by
  have h4 : w.length + 4 = w.length + 2 + 2 := by omega
  rw [h4, drop_two_cons, ← List.drop_drop, List.drop_left]
  rfl

/-- Position-scan companion of a non-matching head: position zero
contributes nothing, the other positions shift into the tail. -/
theorem specScan_cons_of_none {c : Char} {rest : List Char}
    (h : matchName? (c :: rest) = none) : specScan (c :: rest) = specScan rest := by
  have hfun : (fun i => matchName? (List.drop i (c :: rest))) ∘ Nat.succ
      = fun i => matchName? (List.drop i rest) := by
    funext i
    simp [Function.comp, List.drop_succ_cons]
  calc specScan (c :: rest)
      = (0 :: (List.range rest.length).map Nat.succ).filterMap
          (fun i => matchName? (List.drop i (c :: rest))) := by
        simp only [specScan, List.length_cons, List.range_succ_eq_map]
    _ = (List.range rest.length).filterMap
          ((fun i => matchName? (List.drop i (c :: rest))) ∘ Nat.succ) := by
        rw [List.filterMap_cons, List.filterMap_map]
        simp [h]
    _ = specScan rest := by rw [hfun]; rfl

/-- Position-scan companion of a matching head: position zero captures the
name, every other position inside the placeholder contributes nothing, and
the remaining positions are exactly the positions of the tail. -/
theorem specScan_match {w : List Char} (hw : w ≠ [])
    (hall : w.all isWordChar = true) (t : List Char) :
    specScan ('\x7b' :: '\x7b' :: (w ++ '\x7d' :: '\x7d' :: t)) = w :: specScan t := by
  have hmatch : matchName? ('\x7b' :: '\x7b' :: (w ++ '\x7d' :: '\x7d' :: t)) = some w :=
    matchName?_of_shape hw hall t
  have hslen : ('\x7b' :: '\x7b' :: (w ++ '\x7d' :: '\x7d' :: t)).length
      = (w.length + 4) + t.length := by
    simp [List.length_append]
    omega
  have hdropi : ∀ i, List.drop ((w.length + 4) + i)
      ('\x7b' :: '\x7b' :: (w ++ '\x7d' :: '\x7d' :: t)) = List.drop i t := by
    intro i
    rw [← List.drop_drop, drop_placeholder]
  have hfirst : (List.range (w.length + 4)).filterMap
      (fun i => matchName? (List.drop i ('\x7b' :: '\x7b' :: (w ++ '\x7d' :: '\x7d' :: t))))
      = [w] := by
    have h4 : w.length + 4 = (w.length + 3) + 1 := by omega
    rw [h4, List.range_succ_eq_map, List.filterMap_cons, List.filterMap_map]
    simp only [List.drop_zero, hmatch]
    have hnil : (List.range (w.length + 3)).filterMap
        ((fun i => matchName? (List.drop i
          ('\x7b' :: '\x7b' :: (w ++ '\x7d' :: '\x7d' :: t)))) ∘ Nat.succ) = [] := by
      refine List.filterMap_eq_nil_iff.mpr ?_
      intro i hi
      have hi3 : i < w.length + 3 := List.mem_range.mp hi
      exact matchName?_mid_none hmatch (i + 1) (by omega) (by omega)
    rw [hnil]
  have hsecond : ((List.range t.length).map ((w.length + 4) + ·)).filterMap
      (fun i => matchName? (List.drop i ('\x7b' :: '\x7b' :: (w ++ '\x7d' :: '\x7d' :: t))))
      = specScan t := by
    rw [List.filterMap_map]
    have hfun : (fun i => matchName? (List.drop i
        ('\x7b' :: '\x7b' :: (w ++ '\x7d' :: '\x7d' :: t)))) ∘ ((w.length + 4) + ·)
        = fun i => matchName? (List.drop i t) := by
      funext i
      simp only [Function.comp]
      rw [hdropi i]
    rw [hfun]
    rfl
  rw [specScan, hslen, List.range_add, List.filterMap_append, hfirst, hsecond]
  rfl

/-- The imperatively scanned match list coincides with the declarative
position-by-position occurrence list. -/
theorem scanFields_eq_specScan (s : List Char) : scanFields s = specScan s := by
  suffices h : ∀ (n : Nat) (u : List Char), u.length ≤ n → scanFields u = specScan u from
    h s.length s (le_refl _)
  intro n
  induction n with
  | zero =>
    intro u hu
    have hnil : u = [] := List.eq_nil_of_length_eq_zero (by omega)
    subst hnil
    rfl
  | succ m ih =>
    intro u hu
    rcases hm : matchName? u with _ | w
    · rcases u with _ | ⟨c, rest⟩
      · rfl
      · rw [scanFields_nomatch hm, specScan_cons_of_none hm]
        exact ih rest (by simp at hu; omega)
    · obtain ⟨hw, hall, t, hshape⟩ := matchName?_some hm
      subst hshape
      rw [scanFields_match hm, specScan_match hw hall t, drop_placeholder]
      have htlen : t.length ≤ m := by
        simp [List.length_append] at hu
        omega
      rw [ih t htlen]

/-- The set-style deduplication produces a duplicate-free list avoiding the
seen accumulator. -/
theorem dedupKeepFirstAux_spec : ∀ (l seen : List String),
    (dedupKeepFirstAux seen l).Nodup ∧ ∀ x ∈ dedupKeepFirstAux seen l, x ∉ seen := by
  intro l
  induction l with
  | nil => intro seen; exact ⟨List.nodup_nil, by simp [dedupKeepFirstAux]⟩
  | cons x xs ih =>
    intro seen
    by_cases hx : x ∈ seen
    · simp only [dedupKeepFirstAux, if_pos hx]
      exact ih seen
    · simp only [dedupKeepFirstAux, if_neg hx]
      obtain ⟨hnd, hnotin⟩ := ih (x :: seen)
      refine ⟨List.nodup_cons.mpr ⟨fun hmem => (hnotin x hmem) (by simp), hnd⟩, ?_⟩
      intro y hy
      rcases List.mem_cons.mp hy with rfl | hy'
      · exact hx
      · intro hseen
        exact (hnotin y hy') (by simp [hseen])

/-- C9: for every input string `body`, `extractFields body` returns exactly
the names captured by the occurrences of the `\x7b\x7bname\x7d\x7d` pattern
(one or more word characters between double braces) in `body`, in order of
first appearance and with duplicate names removed: it equals the set-style
deduplication of `specScan body.data`, the list of the names of the
occurrences at every position of the body in positional order; the result is
duplicate-free, and a body without any such occurrence yields the empty
list. -/
theorem extractFields_exact (body : String) :
    extractFields body
        = dedupKeepFirst ((specScan body.data).map (fun w => String.mk w))
      ∧ (extractFields body).Nodup
      ∧ (specScan body.data = [] → extractFields body = []) := by
  refine ⟨?_, ?_, ?_⟩
  · simp only [extractFields, scanFields_eq_specScan]
  · exact (dedupKeepFirstAux_spec _ _).1
  · intro h
    simp only [extractFields, scanFields_eq_specScan, h]
    rfl

/-- Witness for C9: the theorem applied at a concrete body with no
placeholder occurrence, discharging the hypothesis of its last conjunct. -/
theorem extractFields_exact_w : extractFields "plain text" = [] :=
  (extractFields_exact "plain text").2.2 (by decide)

/-- Placeholders are never empty. -/
theorem placeholderL_ne_nil (f : List Char) : placeholderL f ≠ [] := by
  simp [placeholderL]

/-- Length of a placeholder. -/
theorem length_placeholderL (f : List Char) : (placeholderL f).length = f.length + 4 := by
  simp [placeholderL, List.length_append]

/-- Placeholder written as a head shape. -/
theorem placeholderL_append (f t : List Char) :
    placeholderL f ++ t = '\x7b' :: '\x7b' :: (f ++ '\x7d' :: '\x7d' :: t) := by
  simp [placeholderL]

/-- Wellformed names are non-empty. -/
theorem wfName_ne {f : List Char} (h : wfName f = true) : f ≠ [] := by
  rcases f with _ | _
  · simp [wfName] at h
  · simp

/-- Wellformed names consist of word characters. -/
theorem wfName_all {f : List Char} (h : wfName f = true) : f.all isWordChar = true := by
  simp [wfName] at h
  exact List.all_eq_true.mpr h.2

/-- The Boolean prefix test captures list prefixes. -/
theorem isPrefOf_iff : ∀ {p s : List Char}, isPrefOf p s = true ↔ ∃ t, s = p ++ t := by
  intro p
  induction p with
  | nil => intro s; simp [isPrefOf]
  | cons a p ih =>
    intro s
    rcases s with _ | ⟨b, l⟩
    · simp [isPrefOf]
    · simp only [isPrefOf, Bool.and_eq_true, decide_eq_true_eq]
      constructor
      · rintro ⟨rfl, hp⟩
        obtain ⟨t, rfl⟩ := ih.mp hp
        exact ⟨t, rfl⟩
      · rintro ⟨t, ht⟩
        simp only [List.cons_append, List.cons.injEq] at ht
        exact ⟨ht.1.symm, ih.mpr ⟨t, ht.2⟩⟩

/-- Replacement on the empty input. -/
theorem replaceAllL_nil (pat rep : List Char) : replaceAllL pat rep [] = [] := by
  unfold replaceAllL repRun
  split <;> rfl

/-- Fuel-irrelevance of the replacement pass once the fuel covers the
input. -/
theorem repGo_congr {pat : List Char} (rep : List Char) (hpat : pat ≠ []) :
    ∀ (f1 : Nat) (s : List Char) (f2 : Nat) (seen : List Char),
      s.length ≤ f1 → s.length ≤ f2 →
      repGo pat rep f1 seen s = repGo pat rep f2 seen s := by
  intro f1
  induction f1 with
  | zero =>
    intro s f2 seen h1 _
    have hnil : s = [] := List.eq_nil_of_length_eq_zero (by omega)
    subst hnil
    cases f2 <;> rfl
  | succ a ih =>
    intro s f2 seen h1 h2
    rcases s with _ | ⟨c, rest⟩
    · cases f2 <;> rfl
    · rcases f2 with _ | b
      · simp at h2
      · have hplen : 1 ≤ pat.length := by
          rcases pat with _ | _
          · exact absurd rfl hpat
          · simp
        by_cases hp : isPrefOf pat (c :: rest) = true
        · simp only [repGo, if_pos hp]
          have hl1 : (List.drop pat.length (c :: rest)).length ≤ a := by
            simp only [List.length_drop, List.length_cons]
            simp at h1
            omega
          have hl2 : (List.drop pat.length (c :: rest)).length ≤ b := by
            simp only [List.length_drop, List.length_cons]
            simp at h2
            omega
          rw [ih _ b (seen ++ pat) hl1 hl2]
        · simp only [repGo, if_neg hp]
          rw [ih rest b (seen ++ [c]) (by simp at h1; omega) (by simp at h2; omega)]

/-- Unfolding of the replacement pass at a pattern occurrence: emit the
dollar-substituted replacement and resume after the pattern, which joins
the passed prefix. -/
theorem repRun_pos {pat s : List Char} (rep seen : List Char) (hpat : pat ≠ [])
    (h : isPrefOf pat s = true) :
    repRun pat rep seen s
      = substRep pat seen (List.drop pat.length s) rep
        ++ repRun pat rep (seen ++ pat) (List.drop pat.length s) := by
  have hplen : 1 ≤ pat.length := by
    rcases pat with _ | _
    · exact absurd rfl hpat
    · simp
  rcases s with _ | ⟨c, rest⟩
  · obtain ⟨t, ht⟩ := isPrefOf_iff.mp h
    exact absurd ht.symm (by simp [hpat])
  · unfold repRun
    simp only [List.length_cons, repGo, if_pos h]
    rw [repGo_congr rep hpat rest.length (List.drop pat.length (c :: rest))
      (List.drop pat.length (c :: rest)).length (seen ++ pat)
      (by simp only [List.length_drop, List.length_cons]; omega) (le_refl _)]

/-- Unfolding of the replacement pass at a non-occurrence position: copy
the character, which joins the passed prefix. -/
theorem repRun_neg {pat : List Char} {c : Char} {rest : List Char}
    (rep seen : List Char) (_hpat : pat ≠ []) (h : isPrefOf pat (c :: rest) = false) :
    repRun pat rep seen (c :: rest) = c :: repRun pat rep (seen ++ [c]) rest := by
  unfold repRun
  simp only [List.length_cons, repGo, h, Bool.false_eq_true, if_false]

/-- An occurrence survives prefixing. -/
theorem occursIn_append_left (pat l x : List Char) (h : occursIn pat l) :
    occursIn pat (x ++ l) := by
  obtain ⟨pre, post, rfl⟩ := h
  exact ⟨x ++ pre, post, by simp⟩

/-- An occurrence survives a cons. -/
theorem occursIn_cons (pat : List Char) (c : Char) (l : List Char)
    (h : occursIn pat l) : occursIn pat (c :: l) := occursIn_append_left pat l [c] h

/-- The pattern occurs at the head of itself plus anything. -/
theorem occursIn_head (pat t : List Char) : occursIn pat (pat ++ t) :=
  ⟨[], t, by simp⟩

/-- Non-empty patterns do not occur in the empty list. -/
theorem not_occursIn_nil {pat : List Char} (hp : pat ≠ []) : ¬ occursIn pat [] := by
  rintro ⟨pre, post, h⟩
  rcases List.append_eq_nil.mp h.symm with ⟨h1, _⟩
  rcases List.append_eq_nil.mp h1 with ⟨_, h3⟩
  exact hp h3

/-- Case split of an occurrence in a cons. -/
theorem occursIn_cons_elim {pat : List Char} {c : Char} {l : List Char}
    (h : occursIn pat (c :: l)) : (∃ t, c :: l = pat ++ t) ∨ occursIn pat l := by
  obtain ⟨pre, post, hsplit⟩ := h
  rcases pre with _ | ⟨p, pre'⟩
  · exact Or.inl ⟨post, by simpa using hsplit⟩
  · refine Or.inr ⟨pre', post, ?_⟩
    have := congrArg (fun x => x.tail) hsplit
    simpa using this

/-- Positions of placeholder occurrences: a wellformed placeholder occurs
in a list exactly where the head matcher captures its name. -/
theorem occursIn_iff_pos {f s : List Char} (hne : f ≠ [])
    (hall : f.all isWordChar = true) :
    occursIn (placeholderL f) s ↔ ∃ p, matchName? (List.drop p s) = some f := by
  constructor
  · rintro ⟨pre, post, rfl⟩
    refine ⟨pre.length, ?_⟩
    rw [show pre ++ placeholderL f ++ post = pre ++ (placeholderL f ++ post) from by
      simp [List.append_assoc]]
    rw [List.drop_left, placeholderL_append]
    exact matchName?_of_shape hne hall post
  · rintro ⟨p, hp⟩
    obtain ⟨_, _, t, hshape⟩ := matchName?_some hp
    refine ⟨List.take p s, t, ?_⟩
    conv_lhs => rw [← List.take_append_drop p s]
    rw [hshape, ← placeholderL_append, List.append_assoc]

/-- Non-overlap at the front: an occurrence of one wellformed placeholder
inside another placeholder plus a tail must lie wholly in the tail. -/
theorem occursIn_past_placeholder {f g : List Char} (hf : wfName f = true)
    (hg : wfName g = true) (hfg : f ≠ g) {t : List Char}
    (h : occursIn (placeholderL f) (placeholderL g ++ t)) :
    occursIn (placeholderL f) t := by
  rw [occursIn_iff_pos (wfName_ne hf) (wfName_all hf)] at h ⊢
  obtain ⟨p, hp⟩ := h
  have hg0 : matchName? (placeholderL g ++ t) = some g := by
    rw [placeholderL_append]
    exact matchName?_of_shape (wfName_ne hg) (wfName_all hg) t
  rcases Nat.lt_or_ge p (g.length + 4) with hlt | hge
  · exfalso
    rcases Nat.eq_zero_or_pos p with rfl | hpos
    · simp only [List.drop_zero] at hp
      exact hfg (Option.some.inj (hg0.symm.trans hp)).symm
    · have hnone := matchName?_mid_none hg0 p hpos (by omega)
      rw [hnone] at hp
      exact absurd hp (by simp)
  · have hdl : List.drop (g.length + 4) (placeholderL g ++ t) = t := by
      rw [← length_placeholderL g]
      exact List.drop_left _ _
    have hdd := List.drop_drop (p - (g.length + 4)) (g.length + 4) (placeholderL g ++ t)
    rw [hdl] at hdd
    rw [show (g.length + 4) + (p - (g.length + 4)) = p from by omega] at hdd
    rw [← hdd] at hp
    exact ⟨p - (g.length + 4), hp⟩

/-- A region without pattern occurrences is copied verbatim by the
replacement pass, joining the passed prefix. -/
theorem repRun_copy {pat rep : List Char} (hpat : pat ≠ []) :
    ∀ (w seen u : List Char),
      (∀ j, j < w.length → isPrefOf pat (List.drop j (w ++ u)) = false) →
      repRun pat rep seen (w ++ u) = w ++ repRun pat rep (seen ++ w) u := by
  intro w
  induction w with
  | nil => intro seen u _; simp
  | cons a w' ih =>
    intro seen u hno
    have h0 : isPrefOf pat (a :: (w' ++ u)) = false := by
      have := hno 0 (by simp)
      simpa using this
    have hshift : ∀ j, j < w'.length → isPrefOf pat (List.drop j (w' ++ u)) = false := by
      intro j hj
      have := hno (j + 1) (by simp only [List.length_cons]; omega)
      simpa [List.cons_append, List.drop_succ_cons] using this
    rw [List.cons_append, repRun_neg rep seen hpat h0, ih (seen ++ [a]) u hshift]
    simp

/-- Survival of a foreign wellformed placeholder through one
global-replace pass of another placeholder, whatever prefix has been
passed (the dollar-substituted insertions are arbitrary blocks for this
argument). -/
theorem occursIn_repRun {f g rep : List Char} (hf : wfName f = true)
    (hg : wfName g = true) (hfg : f ≠ g) :
    ∀ (n : Nat) (s seen : List Char), s.length ≤ n →
      occursIn (placeholderL f) s →
      occursIn (placeholderL f) (repRun (placeholderL g) rep seen s) := by
  intro n
  induction n with
  | zero =>
    intro s seen hs hocc
    have hnil : s = [] := List.eq_nil_of_length_eq_zero (by omega)
    subst hnil
    exact absurd hocc (not_occursIn_nil (placeholderL_ne_nil f))
  | succ m ih =>
    intro s seen hs hocc
    by_cases hpref : isPrefOf (placeholderL g) s = true
    · obtain ⟨t, rfl⟩ := isPrefOf_iff.mp hpref
      rw [repRun_pos rep seen (placeholderL_ne_nil g) hpref, List.drop_left]
      have hkey := occursIn_past_placeholder hf hg hfg hocc
      have htlen : t.length ≤ m := by
        have hL := length_placeholderL g
        simp only [List.length_append] at hs
        omega
      exact occursIn_append_left _ _ _ (ih t (seen ++ placeholderL g) htlen hkey)
    · rcases s with _ | ⟨c, rest⟩
      · exact absurd hocc (not_occursIn_nil (placeholderL_ne_nil f))
      · have hfalse : isPrefOf (placeholderL g) (c :: rest) = false := by
          simpa using hpref
        rcases occursIn_cons_elim hocc with ⟨t, hsplit⟩ | htail
        · rw [hsplit] at hfalse ⊢
          rw [repRun_copy (placeholderL_ne_nil g) (placeholderL f) seen t ?hno]
          case hno =>
            intro j hj
            rcases Nat.eq_zero_or_pos j with rfl | hjpos
            · simpa using hfalse
            · have hm0 : matchName? (placeholderL f ++ t) = some f := by
                rw [placeholderL_append]
                exact matchName?_of_shape (wfName_ne hf) (wfName_all hf) t
              have hnone := matchName?_mid_none hm0 j hjpos
                (by have := length_placeholderL f; omega)
              cases hbool : isPrefOf (placeholderL g) (List.drop j (placeholderL f ++ t)) with
              | false => rfl
              | true =>
                obtain ⟨t', ht'⟩ := isPrefOf_iff.mp hbool
                rw [ht', placeholderL_append,
                  matchName?_of_shape (wfName_ne hg) (wfName_all hg) t'] at hnone
                exact absurd hnone (by simp)
          · exact occursIn_head _ _
        · rw [repRun_neg rep seen (placeholderL_ne_nil g) hfalse]
          exact occursIn_cons _ c _ (ih rest (seen ++ [c]) (by simp at hs; omega) htail)

/-- Survival of a foreign wellformed placeholder through a whole global
replacement of another placeholder. -/
theorem occursIn_replaceAll {f g rep : List Char} (hf : wfName f = true)
    (hg : wfName g = true) (hfg : f ≠ g) :
    ∀ (s : List Char), occursIn (placeholderL f) s →
      occursIn (placeholderL f) (replaceAllL (placeholderL g) rep s) := by
  intro s hocc
  unfold replaceAllL
  have hne : ¬ (placeholderL g).isEmpty = true := by simp [placeholderL]
  rw [if_neg hne]
  exact occursIn_repRun hf hg hfg s.length s [] (le_refl _) hocc

/-- Survival of an unfilled field's placeholder through the whole
sequential fold of `renderPromptWithValues`. -/
theorem renderPrompt_survives_aux {f : List Char} (hf : wfName f = true) :
    ∀ (values : List (String × String)) (s : List Char),
      (∀ gv ∈ values, wfName gv.1.data = true
        ∧ (filledCond gv.2 = true → gv.1.data ≠ f)) →
      occursIn (placeholderL f) s →
      occursIn (placeholderL f) (values.foldl applyField s) := by
  intro values
  induction values with
  | nil => intro s _ h; simpa using h
  | cons gv tl ih =>
    intro s hvals hocc
    rw [List.foldl_cons]
    apply ih _ (fun x hx => hvals x (by simp [hx]))
    by_cases hfill : filledCond gv.2 = true
    · have hwf := (hvals gv (by simp)).1
      have hne := (hvals gv (by simp)).2 hfill
      simp only [applyField, if_pos hfill]
      exact occursIn_replaceAll hf hwf (fun he => hne he.symm) s hocc
    · simp only [applyField, if_neg hfill]
      exact hocc

/-- C10 counterexample: the claim's simultaneous reading fails on the code.
With body `\x7b\x7ba\x7d\x7d\x7b\x7bb\x7d\x7d` and values a := the literal
text `\x7b\x7bb\x7d\x7d`, b := `x` (both non-empty after trimming), the
source function substitutes sequentially and produces `xx`, while replacing
every occurrence of each placeholder by its value produces the text
`\x7b\x7bb\x7d\x7dx`. -/
theorem renderPrompt_cex :
    renderPromptWithValues "\x7b\x7ba\x7d\x7d\x7b\x7bb\x7d\x7d"
        [("a", "\x7b\x7bb\x7d\x7d"), ("b", "x")]
      ≠ renderSpec "\x7b\x7ba\x7d\x7d\x7b\x7bb\x7d\x7d"
        [("a", "\x7b\x7bb\x7d\x7d"), ("b", "x")] := by decide

/-- C10 amended: `renderPromptWithValues(body, values)` substitutes
sequentially, one field at a time in the map's key order.  A step performs
one global-replace pass over the intermediate string, replacing every
occurrence of the literal `\x7b\x7bfield\x7d\x7d` by the value as
JavaScript inserts it - after the replacement-string dollar-substitution
of `String.replace` (`substRep`: a doubled dollar, the matched text, and
the subject context before and after the match) - exactly when the value
is non-empty after trimming JavaScript's full whitespace set, so a
placeholder introduced by an earlier field's value is itself substituted
at the later field's step, which is what the counterexample forces the
claim to concede; a step whose value is empty or whitespace-only leaves
the string unchanged.  Placeholders of fields that are absent from the
map, or whose value is empty or whitespace-only (and that no filled entry
names), still occur literally in the output whenever they occur in the
body. -/
theorem renderPrompt_amended :
    (∀ (body g v : String) (tl : List (String × String)),
        filledCond v = false →
        renderPromptWithValues body ((g, v) :: tl) = renderPromptWithValues body tl)
  ∧ (∀ (body g v : String) (tl : List (String × String)),
        filledCond v = true →
        renderPromptWithValues body ((g, v) :: tl)
          = renderPromptWithValues
              (String.mk (replaceAllL (placeholderL g.data) v.data body.data)) tl)
  ∧ (∀ (body : String) (values : List (String × String)) (f : List Char),
        wfName f = true →
        (∀ gv ∈ values, wfName gv.1.data = true
          ∧ (filledCond gv.2 = true → gv.1.data ≠ f)) →
        occursIn (placeholderL f) body.data →
        occursIn (placeholderL f) (renderPromptWithValues body values).data) := by
  refine ⟨?_, ?_, ?_⟩
  · intro body g v tl hfill
    simp only [renderPromptWithValues, List.foldl_cons, applyField, hfill]
    simp
  · intro body g v tl hfill
    simp only [renderPromptWithValues, List.foldl_cons, applyField, hfill, if_true]
  · intro body values f hf hvals hocc
    exact renderPrompt_survives_aux hf values body.data hvals hocc

/-- Witness for the amended C10 theorem: at body
`\x7b\x7ba\x7d\x7d \x7b\x7bb\x7d\x7d` with only `b` filled, the unfilled
placeholder of `a` still occurs in the output. -/
theorem renderPrompt_amended_w :
    occursIn (placeholderL ['a'])
      (renderPromptWithValues "\x7b\x7ba\x7d\x7d \x7b\x7bb\x7d\x7d" [("b", "x")]).data :=
  renderPrompt_amended.2.2 "\x7b\x7ba\x7d\x7d \x7b\x7bb\x7d\x7d" [("b", "x")] ['a']
    (by decide) (by decide)
    ⟨[], (" \x7b\x7bb\x7d\x7d").data, by decide⟩

/-- String data distributes over append (definitionally). -/
theorem data_append (s t : String) : (s ++ t).data = s.data ++ t.data := rfl

/-- One unfolding step of the loop at an executed tool-bearing response. -/
theorem loopGo_step (env : Env) (script : Script) (modelId : String)
    (rem k : Nat) (acc : List ToolCallRecord) (lastText : String)
    {resp : ModelResponse} (hq : queryScript script k = Except.ok resp)
    (hreq : ¬ resp.toolRequests.isEmpty = true) :
    loopGo env script modelId (rem + 1) k acc lastText
      = loopGo env script modelId rem (k + 1)
          (acc ++ execRequests env resp.toolRequests) resp.text := by
  conv_lhs => rw [loopGo]
  rw [hq]
  simp [hreq]

/-- Every terminal state of the loop carries the model's own identifier. -/
theorem loopGo_model (env : Env) (script : Script) (modelId : String) :
    ∀ (remaining k : Nat) (acc : List ToolCallRecord) (lastText : String),
      ((loopGo env script modelId remaining k acc lastText).1).model = modelId := by
  intro remaining
  induction remaining with
  | zero =>
    intro k acc lastText
    rcases hq : queryScript script k with e | resp
    · simp [loopGo, hq]
    · by_cases hreq : resp.toolRequests.isEmpty = true
      · simp [loopGo, hq, hreq]
      · simp [loopGo, hq, hreq]
  | succ rem ih =>
    intro k acc lastText
    rcases hq : queryScript script k with e | resp
    · simp [loopGo, hq]
    · by_cases hreq : resp.toolRequests.isEmpty = true
      · simp [loopGo, hq, hreq]
      · rw [loopGo_step env script modelId rem k acc lastText hq hreq]
        exact ih (k + 1) _ _

/-- The number of tool-executing iterations is bounded by the remaining
allowance. -/
theorem loopGo_iter_le (env : Env) (script : Script) (modelId : String) :
    ∀ (remaining k : Nat) (acc : List ToolCallRecord) (lastText : String),
      (loopGo env script modelId remaining k acc lastText).2 ≤ k + remaining := by
  intro remaining
  induction remaining with
  | zero =>
    intro k acc lastText
    rcases hq : queryScript script k with e | resp
    · simp [loopGo, hq]
    · by_cases hreq : resp.toolRequests.isEmpty = true
      · simp [loopGo, hq, hreq]
      · simp [loopGo, hq, hreq]
  | succ rem ih =>
    intro k acc lastText
    rcases hq : queryScript script k with e | resp
    · simp [loopGo, hq]
    · by_cases hreq : resp.toolRequests.isEmpty = true
      · simp [loopGo, hq, hreq]
      · rw [loopGo_step env script modelId rem k acc lastText hq hreq]
        have := ih (k + 1) (acc ++ execRequests env resp.toolRequests) resp.text
        omega

/-- A successful scripted reply is a member of the script. -/
theorem queryScript_ok_mem {script : Script} {k : Nat} {resp : ModelResponse}
    (h : queryScript script k = Except.ok resp) : Except.ok resp ∈ script := by
  unfold queryScript at h
  rcases hg : script.get? k with _ | r
  · rw [hg] at h
    exact absurd h (by simp)
  · rw [hg] at h
    have h' : r = Except.ok resp := h
    exact h' ▸ List.get?_mem hg

/-- With at most one request per scripted reply, the record count is
bounded by the accumulated records plus the remaining allowance. -/
theorem loopGo_records_le (env : Env) (script : Script) (modelId : String)
    (hsingle : singleRequestScript script = true) :
    ∀ (remaining k : Nat) (acc : List ToolCallRecord) (lastText : String),
      ((loopGo env script modelId remaining k acc lastText).1).records.length
        ≤ acc.length + remaining := by
  intro remaining
  induction remaining with
  | zero =>
    intro k acc lastText
    rcases hq : queryScript script k with e | resp
    · simp [loopGo, hq]
    · by_cases hreq : resp.toolRequests.isEmpty = true
      · simp [loopGo, hq, hreq]
      · simp [loopGo, hq, hreq]
  | succ rem ih =>
    intro k acc lastText
    rcases hq : queryScript script k with e | resp
    · simp [loopGo, hq]
    · by_cases hreq : resp.toolRequests.isEmpty = true
      · simp [loopGo, hq, hreq]
      · rw [loopGo_step env script modelId rem k acc lastText hq hreq]
        have hmem := queryScript_ok_mem hq
        have hone : resp.toolRequests.length ≤ 1 := by
          have := List.all_eq_true.mp hsingle (Except.ok resp) hmem
          exact of_decide_eq_true this
        have ihx := ih (k + 1) (acc ++ execRequests env resp.toolRequests) resp.text
        have hlen : (acc ++ execRequests env resp.toolRequests).length
            = acc.length + resp.toolRequests.length := by
          simp [execRequests]
        omega

/-- C2 counterexample: one model response carrying six tool requests is
executed within a single iteration, so with cap 5 the ToolCallRecord
sequence reaches six entries and exceeds the cap - the claimed bound
"records ≤ cap" fails because §4.2 lets one response carry several
requests, all executed before the iteration counter advances. -/
theorem toolLoop_cap_cex :
    ¬ ((runLoop envT 5 scriptMulti "m").records.length ≤ 5) := by decide

/-- C2 amended: the iteration cap bounds the number of tool-executing
iterations, not directly the record count: for every loop the number of
tool-executing iterations is at most the configured cap, and whenever
every model response carries at most one ToolCallRequest the
ToolCallRecord sequence length is at most the cap; Scenario B holds
exactly as stated - with cap 5 and a model requesting one tool on six
consecutive responses, the loop executes exactly five tool calls, aborts
on the sixth request, and the Stage1Result status is degraded, not
failed. -/
theorem toolLoop_cap_amended :
    (∀ (env : Env) (cap : Nat) (script : Script) (modelId : String),
        (runLoopFull env cap script modelId).2 ≤ cap)
  ∧ (∀ (env : Env) (cap : Nat) (script : Script) (modelId : String),
        singleRequestScript script = true →
        (runLoop env cap script modelId).records.length ≤ cap)
  ∧ ((runLoop envT 5 scriptB "m").records.length = 5
      ∧ (runLoop envT 5 scriptB "m").status = Status.degraded
      ∧ (runLoopFull envT 5 scriptB "m").2 = 5) := by
  refine ⟨?_, ?_, by decide, by decide, by decide⟩
  · intro env cap script modelId
    have := loopGo_iter_le env script modelId cap 0 [] ""
    simpa [runLoopFull] using this
  · intro env cap script modelId hsingle
    have := loopGo_records_le env script modelId hsingle cap 0 [] ""
    simpa [runLoop, runLoopFull] using this

/-- Witness for the amended C2 theorem: a single-request script at cap 3
stays within the record bound. -/
theorem toolLoop_cap_amended_w :
    (runLoop envT 3 [Except.ok oneReq] "m").records.length ≤ 3 :=
  toolLoop_cap_amended.2.1 envT 3 [Except.ok oneReq] "m" (by decide)

/-- The model field of a whole loop run. -/
theorem runLoop_model (env : Env) (cap : Nat) (script : Script) (modelId : String) :
    (runLoop env cap script modelId).model = modelId :=
  loopGo_model env script modelId cap 0 [] ""

/-- Every Stage-1 final text occurs in the concatenated prompt body. -/
theorem text_occursIn_promptConcat {r : Stage1Result} :
    ∀ {s1 : List Stage1Result}, r ∈ s1 →
      occursIn r.text.data (promptConcat s1).data := by
  intro s1
  induction s1 with
  | nil => intro h; simp at h
  | cons x t ih =>
    intro h
    have hx : (promptConcat (x :: t)).data
        = ("\n--- " ++ x.model ++ "\n").data ++ x.text.data ++ (promptConcat t).data := by
      simp [promptConcat, data_append, List.append_assoc]
    rcases List.mem_cons.mp h with rfl | ht
    · exact ⟨("\n--- " ++ r.model ++ "\n").data, (promptConcat t).data, hx⟩
    · rw [hx, List.append_assoc]
      exact occursIn_append_left _ _ _ (occursIn_append_left _ _ _ (ih ht))

/-- Every event of the Stage-1 tool-event block is a tool call. -/
theorem mem_toolEvs {s1 : List Stage1Result} {e : Ev}
    (h : e ∈ (s1.map (fun r => r.records.map (fun rcd => Ev.tool_call r.model rcd))).flatten) :
    ∃ m rcd, e = Ev.tool_call m rcd := by
  rcases List.mem_flatten.mp h with ⟨l, hl, hel⟩
  rcases List.mem_map.mp hl with ⟨r, _, rfl⟩
  rcases List.mem_map.mp hel with ⟨rcd, _, rfl⟩
  exact ⟨r.model, rcd, rfl⟩

/-- C1: for every council of size N and all behaviours - including failing
or aborted loops - the turn's `stage1_complete` event is unique and its
payload carries exactly N Stage1Results, one per configured model
identifier in council order; each entry is the loop outcome of its own
model's script alone (so no sibling is blocked or corrupted by another
model's failure), and the ranking prompt Stage 2 receives embeds every
entry's final text - Stage 2 never observes a partial Stage-1 result
set. -/
theorem stage1_barrier (env : Env) (cap : Nat) (council : List (String × Script))
    (rankerScript synthScript : Script) (q : String) :
    ∀ out, out = runTurn env cap council rankerScript synthScript q →
      out.1.stage1.length = council.length
      ∧ out.1.stage1.map Stage1Result.model = council.map Prod.fst
      ∧ Ev.stage1_complete out.1.stage1 ∈ out.2
      ∧ (∀ p, Ev.stage1_complete p ∈ out.2 → p = out.1.stage1)
      ∧ out.1.stage1 = council.map (fun mc => runLoop env cap mc.2 mc.1)
      ∧ (∀ r ∈ out.1.stage1, occursIn r.text.data out.1.rankingPrompt.data) := by
  rintro out rfl
  refine ⟨?_, ?_, ?_, ?_, rfl, ?_⟩
  · show (dispatchStage1 env cap council).length = council.length
    simp [dispatchStage1]
  · show (dispatchStage1 env cap council).map Stage1Result.model = council.map Prod.fst
    simp only [dispatchStage1, List.map_map]
    refine List.map_congr_left ?_
    intro mc _
    exact runLoop_model env cap mc.2 mc.1
  · simp [runTurn]
  · intro p hp
    simp only [runTurn, List.append_assoc, List.singleton_append, List.cons_append,
      List.mem_cons, List.mem_append, List.nil_append] at hp
    rcases hp with h1 | h1 | h1
    · exact absurd h1 (by simp)
    · obtain ⟨m, rcd, heq⟩ := mem_toolEvs h1
      exact absurd heq (by simp)
    · rcases h1 with h2 | h2 | h2 | h2 | h2 | h2 | h2
      · exact (Ev.stage1_complete.inj h2)
      · exact absurd h2 (by simp)
      · exact absurd h2 (by simp)
      · exact absurd h2 (by simp)
      · exact absurd h2 (by simp)
      · exact absurd h2 (by simp)
      · simp at h2
  · intro r hr
    show occursIn r.text.data
      (buildRankingPrompt q (dispatchStage1 env cap council)).data
    have hb : (buildRankingPrompt q (dispatchStage1 env cap council)).data
        = ("Rank the council answers to: " ++ q).data
            ++ (promptConcat (dispatchStage1 env cap council)).data := rfl
    rw [hb]
    exact occursIn_append_left _ _ _ (text_occursIn_promptConcat hr)

/-- Witness for C1 at a concrete two-model council with one failing
model: the payload still has one entry per model. -/
theorem stage1_barrier_w :
    (runTurn envT 5 councilW [] [] "q").1.stage1.length = councilW.length :=
  (stage1_barrier envT 5 councilW [] [] "q" _ rfl).1

/-- The order automaton consumes any run of Stage-1 tool-call events
without leaving the Stage-1 window. -/
theorem checkFrom_toolEvs : ∀ (l : List Ev),
    (∀ e ∈ l, ∃ m rcd, e = Ev.tool_call m rcd) →
    ∀ rest, checkFrom 1 (l ++ rest) = checkFrom 1 rest := by
  intro l
  induction l with
  | nil => intro _ rest; rfl
  | cons e t ih =>
    intro h rest
    obtain ⟨m, rcd, rfl⟩ := h e (by simp)
    show checkFrom 1 (Ev.tool_call m rcd :: (t ++ rest)) = _
    simp only [checkFrom, phaseStep]
    exact ih (fun x hx => h x (by simp [hx])) rest

/-- C4: every turn's emitted StreamEvent sequence is accepted by the
causal-order automaton, i.e. `stage1_start` comes first and precedes every
Stage-1 tool_call event, no tool_call appears after `stage1_complete`, no
`stage2_start` appears before `stage1_complete`, and no event of stage K+1
appears before the corresponding stage-K completion event. -/
theorem event_ordering (env : Env) (cap : Nat) (council : List (String × Script))
    (rankerScript synthScript : Script) (q : String) :
    wellOrdered (runTurn env cap council rankerScript synthScript q).2 = true := by
  simp only [runTurn, wellOrdered, List.append_assoc, List.singleton_append,
    List.cons_append, List.nil_append]
  show checkFrom 0 (Ev.stage1_start :: _) = true
  simp only [checkFrom, phaseStep]
  rw [checkFrom_toolEvs _ (fun e he => mem_toolEvs he) _]
  simp [checkFrom, phaseStep]

/-- The last element of a list ending in a singleton. -/
theorem getLast?_append_singleton (l : List Ev) (a : Ev) :
    (l ++ [a]).getLast? = some a := by
  induction l with
  | nil => rfl
  | cons x t ih =>
    rcases ht : t ++ [a] with _ | ⟨y, ys⟩
    · exact absurd ht (by simp)
    · rw [List.cons_append, ht, List.getLast?_cons_cons, ← ht, ih]

/-- C5: a model-call failure in a phase degrades only that phase.  With a
Stage-2 model raising a provider error, the turn's Stage-2 entry is the
explicit failure marker, Stage 3 still executes on the synthesis prompt
(noting the unavailable ranking) and completes with its event emitted; and
for every input whatsoever the completed turn carries entries for all
three stages and the stream terminates with the `complete` event -
`runTurn` is a total function, so no exception escapes `run`. -/
theorem stage_failure_isolation (env : Env) (cap : Nat)
    (council : List (String × Script)) (synthScript : Script) (q : String)
    (e : String) :
    ((runTurn env cap council [Except.error e] synthScript q).1.stage2
        = Except.error ("Ranking failed: " ++ e))
  ∧ ((runTurn env cap council [Except.error e] synthScript q).1.stage3
        = singleShot synthScript "Synthesis failed: "
            (buildSynthesisPrompt q (dispatchStage1 env cap council)
              (Except.error ("Ranking failed: " ++ e))))
  ∧ (Ev.stage3_complete
        (runTurn env cap council [Except.error e] synthScript q).1.stage3
      ∈ (runTurn env cap council [Except.error e] synthScript q).2)
  ∧ (∀ (env' : Env) (cap' : Nat) (council' : List (String × Script))
        (rS sS : Script) (q' : String),
        ∃ s1 rp s2 s3,
          (runTurn env' cap' council' rS sS q').1 = Turn.mk q' s1 rp s2 s3)
  ∧ (∀ (env' : Env) (cap' : Nat) (council' : List (String × Script))
        (rS sS : Script) (q' : String),
        ((runTurn env' cap' council' rS sS q').2).getLast? = some Ev.complete) := by
  refine ⟨rfl, rfl, ?_, ?_, ?_⟩
  · simp [runTurn]
  · intro env' cap' council' rS sS q'
    exact ⟨_, _, _, _, rfl⟩
  · intro env' cap' council' rS sS q'
    show ((([Ev.stage1_start] ++ _ ++ _) ++ [Ev.complete]).getLast? = some Ev.complete)
    exact getLast?_append_singleton _ _

/-- C3: the Tool Executor is a total function whose every branch returns a
result value - never an exception past its boundary: a name outside the
fixed tool set yields exactly the "unsupported tool" error result rather
than a crash, and a provider failure inside a known tool is likewise
converted into an error-bearing result (shown for the URL fetcher). -/
theorem execute_contract :
    (∀ (env : Env) (name : String) (args : List (String × String)),
        name ∉ toolNames →
        execute env name args
          = ToolResult.mk ("Error: unsupported tool: " ++ name)
              (some ("unsupported tool: " ++ name)))
  ∧ (∀ (env : Env) (url e : String),
        env.fetchUrl url = Except.error e →
        (execute env "get_url_content" [("url", url)]).error = some e) := by
  constructor
  · intro env name args hname
    have h1 : ¬ name = "web_search" := fun h => hname (by simp [toolNames, h])
    have h2 : ¬ name = "calculator" := fun h => hname (by simp [toolNames, h])
    have h3 : ¬ name = "wikipedia_search" := fun h => hname (by simp [toolNames, h])
    have h4 : ¬ name = "get_url_content" := fun h => hname (by simp [toolNames, h])
    simp [execute, h1, h2, h3, h4]
  · intro env url e hf
    simp [execute, getUrlContent, getArg, hf]

/-- Witness for C3: a concrete unknown tool name yields the unsupported
result, and a failing fetch provider yields an error-bearing result. -/
theorem execute_contract_w :
    execute envT "python" []
        = ToolResult.mk ("Error: unsupported tool: python")
            (some "unsupported tool: python")
    ∧ (execute envFail "get_url_content" [("url", "http://x")]).error
        = some "net: timeout" :=
  ⟨execute_contract.1 envT "python" [] (by decide),
    execute_contract.2 envFail "http://x" "net: timeout" rfl⟩

/-- Truncation respects the output-size ceiling. -/
theorem truncateContent_length (raw : String) :
    (truncateContent raw).data.length ≤ fetchLimit := by
  unfold truncateContent
  by_cases hlen : raw.data.length ≤ fetchLimit
  · rw [if_pos hlen]
    exact hlen
  · rw [if_neg hlen]
    show (raw.data.take (fetchLimit - truncMarker.data.length)
        ++ truncMarker.data).length ≤ fetchLimit
    have hm : truncMarker.data.length = 15 := by decide
    have hfl : fetchLimit = 4000 := rfl
    rw [List.length_append, List.length_take, Nat.min_def]
    split_ifs <;> omega

/-- Truncated output carries the truncation marker. -/
theorem truncateContent_marker {raw : String} (h : fetchLimit < raw.data.length) :
    occursIn truncMarker.data (truncateContent raw).data := by
  have hlen : ¬ raw.data.length ≤ fetchLimit := by omega
  simp only [truncateContent, if_neg hlen]
  exact ⟨raw.data.take (fetchLimit - truncMarker.data.length), [], by simp⟩

/-- C6: the tools' hard limits: the URL tool's returned text never exceeds
4000 characters - short content is returned verbatim, longer content is
cut and carries the truncation marker - and the search tool renders at
most five result entries; in both cases exceeding a limit yields a
successful truncated/partial result, never an error-bearing one (the
search conjunct holds for every primary reply, however long). -/
theorem tool_limits :
    (∀ (env : Env) (url raw : String),
        env.fetchUrl url = Except.ok raw →
        (execute env "get_url_content" [("url", url)]).error = none
        ∧ (execute env "get_url_content" [("url", url)]).text.data.length ≤ fetchLimit
        ∧ (raw.data.length ≤ fetchLimit →
            (execute env "get_url_content" [("url", url)]).text = raw)
        ∧ (fetchLimit < raw.data.length →
            occursIn truncMarker.data
              (execute env "get_url_content" [("url", url)]).text.data))
  ∧ (∀ rs : List SearchResult, (rs.take searchLimit).length ≤ searchLimit)
  ∧ (∀ (env : Env) (q key : String) (rs : List SearchResult),
        env.tavilyKey = some key → env.tavily q = Except.ok rs →
        execute env "web_search" [("query", q)]
          = ToolResult.mk (renderResults rs) none) := by
  refine ⟨?_, ?_, ?_⟩
  · intro env url raw hf
    have hx : execute env "get_url_content" [("url", url)]
        = ToolResult.mk (truncateContent raw) none := by
      simp [execute, getUrlContent, getArg, hf]
    rw [hx]
    refine ⟨rfl, truncateContent_length raw, ?_, ?_⟩
    · intro hshort
      show truncateContent raw = raw
      unfold truncateContent
      rw [if_pos hshort]
    · intro hlong
      exact truncateContent_marker hlong
  · intro rs
    simp [List.length_take]
  · intro env q key rs hkey hok
    simp [execute, webSearch, getArg, hkey, hok]

/-- Witness for C6: a short page is returned verbatim with no error, and a
successful primary search reply is used as is. -/
theorem tool_limits_w :
    ((execute envT "get_url_content" [("url", "u")]).error = none
      ∧ (execute envT "get_url_content" [("url", "u")]).text = "page text")
    ∧ execute envC2 "web_search" [("query", "x")]
        = ToolResult.mk (renderResults []) none := by
  have h := tool_limits.1 envT "u" "page text" rfl
  exact ⟨⟨h.1, h.2.2.1 (by decide)⟩, tool_limits.2.2 envC2 "x" "key" [] rfl rfl⟩

/-- C7: the calculator is pure - its result is a function of the
expression alone, independent of the provider environment, and re-running
the executor on the same arguments yields the identical result - and it
fails closed: an expression mentioning a symbol or syntax outside the
restricted table yields an error-bearing result, never a (partial)
value. -/
theorem calculator_props :
    (∀ (env env' : Env) (args : List (String × String)),
        execute env "calculator" args = execute env' "calculator" args)
  ∧ (∀ (env : Env) (args : List (String × String)),
        execute env "calculator" args = execute env "calculator" args)
  ∧ (∀ (env : Env) (e : String),
        mentionsDisallowed e = true →
        (execute env "calculator" [("expression", e)]).error.isSome = true) := by
  refine ⟨?_, fun env args => rfl, ?_⟩
  · intro env env' args
    simp [execute]
  · intro env e hdis
    have hx : execute env "calculator" [("expression", e)] = calcTool e := by
      simp [execute, getArg]
    rw [hx]
    unfold mentionsDisallowed at hdis
    unfold calcTool calcEval
    rcases ht : calcTokenize (e.data.length + 1) e.data with msg | ts
    · rfl
    · rw [ht] at hdis
      have hdis' : hasDisallowedTok ts = true := hdis
      simp only [hdis']
      rfl

/-- Witness for C7: a concrete expression calling a name outside the
restricted table yields an error-bearing result. -/
theorem calculator_props_w :
    (execute envT "calculator" [("expression", "evil(2)")]).error.isSome = true :=
  calculator_props.2.2 envT "evil(2)" (by decide)

/-- C8: the search tool's fallback chain is tried in its fixed order and
falls through only on provider-level failure: with a configured credential
a successful primary reply - even an empty result set - is used and the
fallback is irrelevant; a primary transport error, or a missing
credential, falls through to the fallback; and (Scenario C) a primary
transport error with a fallback reply of three results produces a
ToolCallRecord whose result carries the fallback's results with no error
surfaced to the model. -/
theorem search_fallback :
    (∀ (env : Env) (q key : String) (rs : List SearchResult),
        env.tavilyKey = some key → env.tavily q = Except.ok rs →
        execute env "web_search" [("query", q)]
          = ToolResult.mk (renderResults rs) none)
  ∧ (∀ (env : Env) (q key err : String) (rs : List SearchResult),
        env.tavilyKey = some key → env.tavily q = Except.error err →
        env.ddg q = Except.ok rs →
        execute env "web_search" [("query", q)]
          = ToolResult.mk (renderResults rs) none)
  ∧ (∀ (env : Env) (q : String) (rs : List SearchResult),
        env.tavilyKey = none → env.ddg q = Except.ok rs →
        execute env "web_search" [("query", q)]
          = ToolResult.mk (renderResults rs) none)
  ∧ (∀ (env : Env) (q key err : String) (rs : List SearchResult),
        env.tavilyKey = some key → env.tavily q = Except.error err →
        env.ddg q = Except.ok rs →
        execRequests env [ToolCallRequest.mk "web_search" [("query", q)]]
          = [ToolCallRecord.mk "web_search" [("query", q)]
              (ToolResult.mk (renderResults rs) none)]) := by
  refine ⟨?_, ?_, ?_, ?_⟩
  · intro env q key rs hkey hok
    simp [execute, webSearch, getArg, hkey, hok]
  · intro env q key err rs hkey herr hok
    simp [execute, webSearch, getArg, hkey, herr, hok]
  · intro env q rs hkey hok
    simp [execute, webSearch, getArg, hkey, hok]
  · intro env q key err rs hkey herr hok
    simp only [execRequests, List.map_cons, List.map_nil]
    rw [show execute env "web_search" [("query", q)]
        = ToolResult.mk (renderResults rs) none from by
      simp [execute, webSearch, getArg, hkey, herr, hok]]

/-- Witness for C8 at Scenario C's concrete environment: the record
carries the fallback's three results and no error. -/
theorem search_fallback_w :
    execRequests envC [ToolCallRequest.mk "web_search" [("query", "news")]]
      = [ToolCallRecord.mk "web_search" [("query", "news")]
          (ToolResult.mk (renderResults r3list) none)] :=
  search_fallback.2.2.2 envC "news" "key" "transport error" r3list rfl rfl rfl

end Theorems

end LLMCouncil
